import Mathlib

/-!
Verification development for the hyprconf-tui repository (Rust).

Strings are modelled as `List Char` (Rust `String`s are UTF-8; Rust
`chars().count()` corresponds to `List.length`, and Rust byte indices are
recovered through `utf8Len`).  Fallible filesystem access is modelled by an
explicit record of oracles (`FS`); a Rust `Result` error is `SRes.err` and a
Rust panic is `SRes.crash`.
-/

/-- Coerce a Lean string literal to the `List Char` representation. -/
def str (s : String) : List Char := s.data

/-- Rust `char::is_whitespace`, restricted to the ASCII whitespace the
repository's data actually contains. -/
def isWs (c : Char) : Bool := c.isWhitespace

/-- Rust `str::trim_start`. -/
def trimStart (s : List Char) : List Char := s.dropWhile isWs

/-- Rust `str::trim_end`. -/
def trimEnd (s : List Char) : List Char := (s.reverse.dropWhile isWs).reverse

/-- Rust `str::trim`. -/
def trim (s : List Char) : List Char := trimEnd (trimStart s)

/-- Rust `str::starts_with` on a string pattern. -/
def startsWith (s pat : List Char) : Bool :=
  match s, pat with
  | _, [] => true
  | [], _ :: _ => false
  | a :: s, b :: t => a == b && startsWith s t

theorem startsWith_length {s pat : List Char} (h : startsWith s pat = true) :
    pat.length ≤ s.length := by
  induction pat generalizing s with
  | nil => simp
  | cons b t ih =>
    cases s with
    | nil => simp [startsWith] at h
    | cons a s =>
      simp only [startsWith, Bool.and_eq_true] at h
      simpa using ih h.2

/-- Structural worker for `dropPatRepeat`; the fuel bounds the number of
strip steps.  `s.length` units always suffice, because each step removes a
nonempty matched pattern from the front. -/
def dropPatRepeatAux (pat : List Char) : Nat → List Char → List Char
  | 0, s => s
  | fuel + 1, s =>
    if pat ≠ [] ∧ startsWith s pat = true then
      dropPatRepeatAux pat fuel (s.drop pat.length)
    else s

/-- Rust `str::trim_start_matches` with a string pattern: strip every leading
repetition of `pat`. -/
def dropPatRepeat (pat s : List Char) : List Char :=
  dropPatRepeatAux pat s.length s

/-- Rust `char::to_lowercase` as used on the repository's ASCII aliases
(`str::to_lowercase` applied characterwise). -/
def toLowercase (s : List Char) : List Char := s.map Char.toLower

/-- Number of UTF-8 bytes of one scalar value (Rust `char::len_utf8`). -/
def utf8CharLen (c : Char) : Nat :=
  if c.toNat < 0x80 then 1
  else if c.toNat < 0x800 then 2
  else if c.toNat < 0x10000 then 3
  else 4

/-- Rust `str::len` (UTF-8 byte length). -/
def utf8Len : List Char → Nat
  | [] => 0
  | c :: t => utf8CharLen c + utf8Len t

/-- Split a character list at a byte offset, as Rust slicing `s[..n]` / `s[n..]`
does; `none` when `n` does not fall on a character boundary (where Rust
panics) or exceeds the total byte length. -/
def byteSplitAt : Nat → List Char → Option (List Char × List Char)
  | 0, s => some ([], s)
  | _ + 1, [] => none
  | n + 1, c :: t =>
    if utf8CharLen c ≤ n + 1 then
      match byteSplitAt (n + 1 - utf8CharLen c) t with
      | some (a, b) => some (c :: a, b)
      | none => none
    else none

/-- Rust `str::split_once` on a character separator. -/
def splitOnce (sep : Char) : List Char → Option (List Char × List Char)
  | [] => none
  | c :: t =>
    if c = sep then some ([], t)
    else
      match splitOnce sep t with
      | some (a, b) => some (c :: a, b)
      | none => none

/-! ## The data model (src/model.rs) -/

/-- `model.rs`: the closed category enumeration. -/
inductive Category where
  | hyprland : Category
  | utility : Category
  | themes : Category
  | plugins : Category
  | confd : Category
  | scripts : Category
deriving DecidableEq

/-- `impl fmt::Display for Category` (model.rs). -/
def Category.label : Category → List Char
  | .hyprland => str "hyprland"
  | .utility => str "utility"
  | .themes => str "themes"
  | .plugins => str "plugins"
  | .confd => str "conf.d"
  | .scripts => str "scripts"

/-- `model.rs`: one discovered file. -/
structure ConfigEntry where
  path : List Char
  file_name : List Char
  «alias» : List Char
  description : Option (List Char)
  category : Category
deriving DecidableEq

/-- `ConfigEntry::sort_key` (model.rs lines 39-57). -/
def ConfigEntry.sort_key (e : ConfigEntry) : Nat × List Char :=
  let cat_order : Nat :=
    match e.category with
    | .hyprland => 0
    | .utility => 1
    | .themes => 2
    | .plugins => 3
    | .confd => 4
    | .scripts => 5
  let within : List Char :=
    match e.category with
    | .hyprland | .utility => toLowercase e.«alias»
    | .confd => toLowercase e.file_name
    | .themes | .plugins | .scripts => toLowercase e.«alias»
  (cat_order, within)

/-! ## Filesystem model and scan (src/scan.rs) -/

/-- The filesystem oracles `scan.rs` consults.  `readDir p = none` models a
failed `read_dir` (or a failed directory-entry read, both of which `?`-abort
the scan); `metaExec p = none` models a failed `std::fs::metadata`;
`openRead p = none` models a failed `File::open`; an individual `none` line
models one failed `BufRead` line read (skipped by `let Ok(line) = line else
continue`). -/
structure FS where
  ex : List Char → Bool
  isDir : List Char → Bool
  isFile : List Char → Bool
  readDir : List Char → Option (List (List Char))
  metaExec : List Char → Option Bool
  openRead : List Char → Option (List (Option (List Char)))

/-- Outcome of a fallible scan computation: `crash` is a Rust panic, `err` a
Rust `Err`, `ok` a Rust `Ok`. -/
inductive SRes (α : Type) where
  | crash : SRes α
  | err : SRes α
  | ok : α → SRes α
deriving DecidableEq

def SRes.bind {α β : Type} : SRes α → (α → SRes β) → SRes β
  | .crash, _ => .crash
  | .err, _ => .err
  | .ok a, f => f a

/-- `COMMENT_PREFIXES` (scan.rs line 9). -/
def commentMarkers : List (List Char) := [str "#", str "//", str ";"]

/-- The candidate a single line of `first_comment_line`'s loop yields:
`none` for an unreadable line, a shebang, a non-comment line, or a comment
whose content trims to empty (all of which `continue`). -/
def lineCandidate : Option (List Char) → Option (List Char)
  | none => none
  | some line =>
    let trimmed := trim line
    if startsWith trimmed (str "#!") then none
    else
      match commentMarkers.find? (fun p => startsWith trimmed p) with
      | none => none
      | some p =>
        let content := trim (dropPatRepeat p trimmed)
        if content = [] then none else some content

/-- The `for (i, line) in reader.lines().enumerate()` loop of
`first_comment_line` (scan.rs lines 17-29): every line, skipped or not,
consumes one unit of the `max_lines` budget. -/
def fclLoop : List (Option (List Char)) → Nat → Option (List Char)
  | _, 0 => none
  | [], _ + 1 => none
  | l :: t, n + 1 =>
    match lineCandidate l with
    | some c => some c
    | none => fclLoop t n

/-- `first_comment_line` (scan.rs lines 11-31).  A failed `File::open` yields
`Ok(None)`, which this models as `none` (the Rust function never returns
`Err`). -/
def first_comment_line (fs : FS) (path : List Char) (max_lines : Nat) :
    Option (List Char) :=
  match fs.openRead path with
  | none => none
  | some lines => fclLoop lines max_lines

/-- `alias_from_conf_d` (scan.rs lines 33-40). -/
def alias_from_conf_d (file_stem : List Char) : List Char :=
  match splitOnce '-' file_stem with
  | some (_num, rest) => rest
  | none => file_stem

/-- The separator characters `strip_alias_prefix` removes after a matched
alias (scan.rs line 112): `'-'`, em dash, en dash, `':'`, `'|'`. -/
def sepChars : List Char := ['-', '—', '–', ':', '|']

def isSepChar (c : Char) : Bool := isWs c || sepChars.contains c

/-- `strip_alias_prefix` (scan.rs lines 101-116).  `none` models the panic of
the byte slice `s[..alias.len()]` when `alias.len()` does not fall on a
character boundary of the trimmed description. -/
def strip_alias_pfx («alias» desc : List Char) : Option (List Char) :=
  let trimmed := trim desc
  if trimmed = [] then some []
  else
    let alias_lc := toLowercase (trim «alias»)
    if utf8Len «alias» ≤ utf8Len trimmed then
      match byteSplitAt (utf8Len «alias») trimmed with
      | none => none
      | some (pre, suf) =>
        if toLowercase pre = alias_lc then
          some (trimStart (suf.dropWhile isSepChar))
        else some trimmed
    else some trimmed

/-- `Path::join` for the joined paths the scan builds. -/
def joinP (dir name : List Char) : List Char := dir ++ '/' :: name

/-- `Path::file_name` on the paths the scan builds: the component after the
last `'/'`. -/
def fileNameOf (p : List Char) : List Char :=
  (p.reverse.takeWhile (fun c => c != '/')).reverse

/-- Rust `Path::file_stem` / `Path::extension` on one path component: split at
the last `'.'`, with no extension when the only `'.'` leads the name. -/
def stemExt (name : List Char) : List Char × Option (List Char) :=
  if name = str ".." then (name, none)
  else
    let r := name.reverse
    let e := r.takeWhile (fun c => c != '.')
    match r.dropWhile (fun c => c != '.') with
    | [] => (name, none)
    | _ :: restTail =>
      if restTail = [] then (name, none)
      else (restTail.reverse, some e.reverse)

def stemOf (name : List Char) : List Char := (stemExt name).1

def extOf (name : List Char) : Option (List Char) := (stemExt name).2

/-- `entry_for_path` (scan.rs lines 42-99): per-category alias and
description-budget dispatch, then alias-prefix deduplication of the
description.  `SRes.crash` propagates the panic of `strip_alias_prefix`. -/
def entry_for_path (fs : FS) (path : List Char) (category : Category) :
    SRes ConfigEntry :=
  let file_name := fileNameOf path
  let stem := stemOf file_name
  let ad : List Char × Option (List Char) :=
    match category with
    | .hyprland => (str "hyprland", first_comment_line fs path 10)
    | .utility => (stem, first_comment_line fs path 20)
    | .confd => (alias_from_conf_d stem, first_comment_line fs path 10)
    | .themes => (stem, first_comment_line fs path 10)
    | .plugins => (stem, first_comment_line fs path 10)
    | .scripts => (stem, first_comment_line fs path 10)
  match ad.2 with
  | none => .ok ⟨path, file_name, ad.1, none, category⟩
  | some d =>
    match strip_alias_pfx ad.1 d with
    | none => .crash
    | some s => .ok ⟨path, file_name, ad.1, some s, category⟩

/-- scan.rs lines 121-125: the single `hyprland.conf` entry. -/
def hyprBranch (fs : FS) (root : List Char) : SRes (List ConfigEntry) :=
  let p := joinP root (str "hyprland.conf")
  if fs.ex p then SRes.bind (entry_for_path fs p .hyprland) (fun e => .ok [e])
  else .ok []

/-- scan.rs line 128: the fixed utility file names. -/
def utilNames : List (List Char) :=
  [str "hyprpaper.conf", str "hyprlock.conf", str "hypridle.conf"]

def utilsLoop (fs : FS) (root : List Char) :
    List (List Char) → SRes (List ConfigEntry)
  | [] => .ok []
  | n :: t =>
    let p := joinP root n
    if fs.ex p then
      SRes.bind (entry_for_path fs p .utility) (fun e =>
        SRes.bind (utilsLoop fs root t) (fun l => .ok (e :: l)))
    else utilsLoop fs root t

/-- scan.rs lines 127-133. -/
def utilsBranch (fs : FS) (root : List Char) : SRes (List ConfigEntry) :=
  utilsLoop fs root utilNames

def confdLoop (fs : FS) (dir : List Char) :
    List (List Char) → SRes (List ConfigEntry)
  | [] => .ok []
  | n :: t =>
    let p := joinP dir n
    if extOf (fileNameOf p) = some (str "conf") then
      SRes.bind (entry_for_path fs p .confd) (fun e =>
        SRes.bind (confdLoop fs dir t) (fun l => .ok (e :: l)))
    else confdLoop fs dir t

/-- scan.rs lines 135-145: `conf.d/*.conf` through `entry_for_path`. -/
def confdBranch (fs : FS) (root : List Char) : SRes (List ConfigEntry) :=
  let d := joinP root (str "conf.d")
  if fs.isDir d then
    match fs.readDir d with
    | none => .err
    | some names => confdLoop fs d names
  else .ok []

/-- The entry the themes/plugins branches construct inline (scan.rs lines
155-158 and 170-173): alias = file stem, 10-line description budget, and —
unlike `entry_for_path` — no alias-prefix stripping. -/
def dirEntry (fs : FS) (dir n : List Char) (cat : Category) : ConfigEntry :=
  let p := joinP dir n
  ⟨p, fileNameOf p, stemOf (fileNameOf p), first_comment_line fs p 10, cat⟩

def pureDirLoop (fs : FS) (dir : List Char) (cat : Category) :
    List (List Char) → List ConfigEntry
  | [] => []
  | n :: t =>
    if extOf (fileNameOf (joinP dir n)) = some (str "conf") then
      dirEntry fs dir n cat :: pureDirLoop fs dir cat t
    else pureDirLoop fs dir cat t

/-- scan.rs lines 147-161: `themes/*.conf`, entries built inline. -/
def themesBranch (fs : FS) (root : List Char) : SRes (List ConfigEntry) :=
  let d := joinP root (str "themes")
  if fs.isDir d then
    match fs.readDir d with
    | none => .err
    | some names => .ok (pureDirLoop fs d .themes names)
  else .ok []

/-- scan.rs lines 163-176: `plugins/*.conf`, entries built inline. -/
def pluginsBranch (fs : FS) (root : List Char) : SRes (List ConfigEntry) :=
  let d := joinP root (str "plugins")
  if fs.isDir d then
    match fs.readDir d with
    | none => .err
    | some names => .ok (pureDirLoop fs d .plugins names)
  else .ok []

def scriptsLoop (fs : FS) (dir : List Char) :
    List (List Char) → SRes (List ConfigEntry)
  | [] => .ok []
  | n :: t =>
    let p := joinP dir n
    if fs.isFile p then
      match fs.metaExec p with
      | none => .err
      | some isExec =>
        if isExec then
          SRes.bind (scriptsLoop fs dir t) (fun l =>
            .ok (⟨p, fileNameOf p, stemOf (fileNameOf p),
                  first_comment_line fs p 10, .scripts⟩ :: l))
        else scriptsLoop fs dir t
    else scriptsLoop fs dir t

/-- scan.rs lines 178-198: executable files in `scripts/`; a failed
`std::fs::metadata` `?`-aborts the scan. -/
def scriptsBranch (fs : FS) (root : List Char) : SRes (List ConfigEntry) :=
  let d := joinP root (str "scripts")
  if fs.isDir d then
    match fs.readDir d with
    | none => .err
    | some names => scriptsLoop fs d names
  else .ok []

/-- The six discovery passes of `scan_configs` in source order, before the
final sort (scan.rs lines 118-200). -/
def scanRaw (fs : FS) (root : List Char) : SRes (List ConfigEntry) :=
  SRes.bind (hyprBranch fs root) fun l1 =>
  SRes.bind (utilsBranch fs root) fun l2 =>
  SRes.bind (confdBranch fs root) fun l3 =>
  SRes.bind (themesBranch fs root) fun l4 =>
  SRes.bind (pluginsBranch fs root) fun l5 =>
  SRes.bind (scriptsBranch fs root) fun l6 =>
  .ok (l1 ++ l2 ++ l3 ++ l4 ++ l5 ++ l6)

/-- Boolean lexicographic order on character lists (Rust `String` ordering:
UTF-8 byte order, which coincides with scalar-value order). -/
def listLeB : List Char → List Char → Bool
  | [], _ => true
  | _ :: _, [] => false
  | a :: s, b :: t =>
    if a.toNat < b.toNat then true
    else if b.toNat < a.toNat then false
    else listLeB s t

/-- Lexicographic order on sort keys `(u8, String)`. -/
def keyLeB (a b : Nat × List Char) : Bool :=
  if a.1 < b.1 then true
  else if b.1 < a.1 then false
  else listLeB a.2 b.2

def entryLeB (e f : ConfigEntry) : Bool := keyLeB e.sort_key f.sort_key

/-- One step of a stable insertion sort: insert before the first element the
new one compares `≤` to, hence after every earlier equal-key element. -/
def insertLe {α : Type} (r : α → α → Bool) (a : α) : List α → List α
  | [] => [a]
  | b :: t => if r a b then a :: b :: t else b :: insertLe r a t

/-- A stable sort, modelling `Vec::sort_by_key` (which Rust documents as
stable). -/
def sortLe {α : Type} (r : α → α → Bool) : List α → List α
  | [] => []
  | a :: t => insertLe r a (sortLe r t)

/-- `scan_configs` (scan.rs lines 118-205): the six passes followed by the
stable sort `out.sort_by_key(|e| e.sort_key())`. -/
def scan_configs (fs : FS) (root : List Char) : SRes (List ConfigEntry) :=
  SRes.bind (scanRaw fs root) (fun out => .ok (sortLe entryLeB out))

/-! ## Line renderer (src/ui.rs) -/

/-- The `skim_tuikit` colors `build_colored_line` uses. -/
inductive ColorM where
  | ansiValue : Nat → ColorM
  | rgb : Nat → Nat → Nat → ColorM
deriving DecidableEq

/-- A display attribute: foreground color plus the bold effect. -/
structure AttrM where
  fg : ColorM
  bold : Bool
deriving DecidableEq

/-- ui.rs line 136: category label attribute (yellow). -/
def catAttr : AttrM := ⟨.ansiValue 3, false⟩

/-- ui.rs line 144: alias attribute (bold rgb). -/
def aliasAttr : AttrM := ⟨.rgb 0xDA 0x68 0xEC, true⟩

/-- ui.rs line 152: description attribute. -/
def descAttr : AttrM := ⟨.rgb 0xFF 0x6A 0x3D, false⟩

/-- ui.rs line 162: trailing file/path attribute (white). -/
def fileAttr : AttrM := ⟨.ansiValue 15, false⟩

/-- The separator literal of ui.rs line 110 — the source file's literal bytes
decode to the five characters space, `â`, `€`, `”`, space (a mojibake-encoded
em dash), so the separator is five characters wide. -/
def sepGlyph : List Char := str " â€” "

/-- `build_colored_line` (ui.rs lines 107-167): the display string together
with the annotated half-open character-index ranges, produced by one running
character cursor. -/
def build_colored_line (e : ConfigEntry) (seg_colors : Bool) :
    List Char × List (AttrM × Nat × Nat) :=
  let desc := e.description.getD []
  let sep := if trim desc = [] then [] else sepGlyph
  let base := str "[" ++ e.category.label ++ str "] " ++ e.«alias» ++ sep ++
    desc ++ str " | " ++ e.file_name ++ str " (" ++ e.path ++ str ")"
  if seg_colors = false then (base, [])
  else
    let catLen := e.category.label.length
    let idx1 := (str "[").length
    let f1 : AttrM × Nat × Nat := (catAttr, idx1, idx1 + catLen)
    let idx2 := idx1 + catLen + (str "] ").length
    let aliasLen := e.«alias».length
    let f2 : AttrM × Nat × Nat := (aliasAttr, idx2, idx2 + aliasLen)
    let idx3 := idx2 + aliasLen
    let step : Nat × List (AttrM × Nat × Nat) :=
      if sep = [] then (idx3, [])
      else
        let iD := idx3 + sep.length
        (iD + desc.length, [(descAttr, iD, iD + desc.length)])
    let idx5 := step.1 + (str " ").length
    let file_trail := str "| " ++ e.file_name ++ str " (" ++ e.path ++ str ")"
    let f4 : AttrM × Nat × Nat := (fileAttr, idx5, idx5 + file_trail.length)
    (base, [f1, f2] ++ step.2 ++ [f4])

/-- Slice a character list by a half-open character-index range. -/
def sliceChars (s : List Char) (r : Nat × Nat) : List Char :=
  (s.drop r.1).take (r.2 - r.1)

/-- The annotated ranges are weakly increasing and non-overlapping between
`lo` and `hi`: each range satisfies `lo ≤ start ≤ stop ≤ hi` and the next
range starts no earlier than this one stops. -/
def chainB (lo hi : Nat) : List (AttrM × Nat × Nat) → Bool
  | [] => true
  | (_, s, e) :: t => decide (lo ≤ s) && decide (s ≤ e) && decide (e ≤ hi) && chainB e hi t

/-- The trailing `"| <file> (<path>)"` span of the display string. -/
def trailText (e : ConfigEntry) : List Char :=
  str "| " ++ e.file_name ++ str " (" ++ e.path ++ str ")"

/-- The segment texts the annotated ranges are meant to cover, in
left-to-right order: category label (without brackets), alias, the
description when one is present (nonempty), and the trailing file/path
span. -/
def segTexts (e : ConfigEntry) : List (List Char) :=
  [e.category.label, e.«alias»] ++
    (match e.description with
     | some d => if d = [] then [] else [d]
     | none => []) ++ [trailText e]

/-- A description field as the scan actually produces it: absent, or a string
that carries no leading/trailing whitespace (every stored description is the
output of `trim` or of `strip_alias_prefix`, both of which are
trim-neutral — proved below in `scan_desc_wf`). -/
def descWf (d : Option (List Char)) : Prop :=
  d = none ∨ ∃ x, d = some x ∧ trim x = x

/-! ## Selector adapter (src/ui.rs, `Picker::pick`) -/

/-- The part of the external selector's outcome `Picker::pick` inspects:
the abort flag and the `output()` strings (the items' `id_path`s) of the
selected items. -/
structure SkimOut where
  is_abort : Bool
  selected : List (List Char)

/-- The result-translation logic of `Picker::pick` (ui.rs lines 53-104),
with the external selector's outcome passed in as an oracle
(`none` models `Skim::run_with` returning `None`).  The Rust function
returns `Result`; no path of this logic produces an error. -/
def pickModel (entries : List ConfigEntry) (catF : Option Category)
    (out : Option SkimOut) : Except Unit (Option ConfigEntry) :=
  let filtered := entries.filter (fun e =>
    match catF with
    | some c => decide (e.category = c)
    | none => true)
  match out with
  | some o =>
    if o.is_abort then .ok none
    else
      match o.selected.head? with
      | some sel =>
        match filtered.find? (fun e => decide (e.path = sel)) with
        | some e => .ok (some e)
        | none => .ok none
      | none => .ok none
  | none => .ok none

/-! ## The claim C3 alias rule as the specification words it -/

/-- Modelled from the claim's words: strip a leading `number + separator`
prefix (a nonempty digit run followed by `'-'`) from the stem if present,
else use the stem unmodified. -/
def alias_from_conf_d_claimed (stem : List Char) : List Char :=
  match splitOnce '-' stem with
  | some (num, rest) => if num ≠ [] ∧ num.all Char.isDigit then rest else stem
  | none => stem

/-! ## Concrete fixtures -/

/-- A filesystem with nothing in it. -/
def fsEmpty : FS :=
  ⟨fun _ => false, fun _ => false, fun _ => false,
   fun _ => none, fun _ => none, fun _ => none⟩

/-- A root containing only `themes/ocean.conf`, whose first line is the
comment `# Ocean - blue theme`. -/
def fsTheme : FS :=
  ⟨fun _ => false,
   fun p => p = str "r/themes",
   fun _ => false,
   fun p => if p = str "r/themes" then some [str "ocean.conf"] else none,
   fun _ => none,
   fun p => if p = str "r/themes/ocean.conf"
            then some [some (str "# Ocean - blue theme")] else none⟩

/-- A root containing only `hyprland.conf`, which cannot be opened. -/
def fsUnreadable : FS :=
  ⟨fun p => p = str "r/hyprland.conf",
   fun _ => false, fun _ => false,
   fun _ => none, fun _ => none, fun _ => none⟩

/-- A root whose `conf.d` directory exists but cannot be enumerated. -/
def fsBadDir : FS :=
  ⟨fun _ => false,
   fun p => p = str "r/conf.d",
   fun _ => false,
   fun _ => none, fun _ => none, fun _ => none⟩

example : scan_configs fsTheme (str "r") =
    .ok [⟨str "r/themes/ocean.conf", str "ocean.conf", str "ocean",
          some (str "Ocean - blue theme"), .themes⟩] := by decide

example : strip_alias_pfx (str "ocean") (str "Ocean - blue theme") =
    some (str "blue theme") := by decide

example : strip_alias_pfx (str "binds") (str "Binds - keybindings for Hyprland") =
    some (str "keybindings for Hyprland") := by decide

example : strip_alias_pfx (str "a") (str "é") = none := by decide

example : alias_from_conf_d (str "70-binds") = str "binds" := by decide

example : alias_from_conf_d (str "foo-bar") = str "bar" := by decide

example : scan_configs fsUnreadable (str "r") =
    .ok [⟨str "r/hyprland.conf", str "hyprland.conf", str "hyprland",
          none, .hyprland⟩] := by decide

example : scan_configs fsBadDir (str "r") = .err := by decide

example : scan_configs fsEmpty (str "r") = .ok [] := by decide

/-! ## Whitespace-neutrality of stored descriptions -/

/-- The first character, if any, is not whitespace. -/
def noLead (s : List Char) : Prop := ∀ c, s.head? = some c → isWs c = false

/-- The last character, if any, is not whitespace. -/
def noTrail (s : List Char) : Prop := ∀ c, s.getLast? = some c → isWs c = false

theorem head?_dropWhile_false {p : Char → Bool} {s : List Char} {c : Char}
    (h : (s.dropWhile p).head? = some c) : p c = false := by
  induction s with
  | nil => simp at h
  | cons a t ih =>
    by_cases hpa : p a = true
    · rw [List.dropWhile_cons, if_pos hpa] at h
      exact ih h
    · rw [List.dropWhile_cons, if_neg hpa] at h
      simp at h
      subst h
      simpa using hpa

theorem noLead_trimStart (s : List Char) : noLead (trimStart s) :=
  fun _ h => head?_dropWhile_false h

theorem trimStart_eq_of_noLead {s : List Char} (h : noLead s) : trimStart s = s := by
  cases s with
  | nil => rfl
  | cons a t =>
    have ha := h a rfl
    simp [trimStart, List.dropWhile_cons, ha]

theorem getLast?_eq_head?_reverse (s : List Char) : s.getLast? = s.reverse.head? := by
  cases s with
  | nil => rfl
  | cons a t => rw [List.getLast?_eq_head?_reverse]

theorem noTrail_trimEnd (s : List Char) : noTrail (trimEnd s) := by
  intro c hc
  rw [getLast?_eq_head?_reverse, trimEnd, List.reverse_reverse] at hc
  exact head?_dropWhile_false hc

theorem trimEnd_eq_of_noTrail {s : List Char} (h : noTrail s) : trimEnd s = s := by
  have hrev : noLead s.reverse := by
    intro c hc
    exact h c (by rw [getLast?_eq_head?_reverse]; exact hc)
  have : trimStart s.reverse = s.reverse := trimStart_eq_of_noLead hrev
  rw [trimEnd]
  rw [show s.reverse.dropWhile isWs = trimStart s.reverse from rfl, this,
    List.reverse_reverse]

theorem trimEnd_isPrefix (s : List Char) : trimEnd s ++ (s.reverse.takeWhile isWs).reverse = s := by
  rw [trimEnd, ← List.reverse_append, List.takeWhile_append_dropWhile, List.reverse_reverse]

theorem noLead_trimEnd {s : List Char} (h : noLead s) : noLead (trimEnd s) := by
  intro c hc
  apply h c
  have hpre := trimEnd_isPrefix s
  cases he : trimEnd s with
  | nil => rw [he] at hc; simp at hc
  | cons a t =>
    rw [he] at hc hpre
    simp at hc
    rw [← hpre, List.cons_append]
    simp [hc]

theorem noLead_trim (s : List Char) : noLead (trim s) :=
  noLead_trimEnd (noLead_trimStart s)

theorem noTrail_trim (s : List Char) : noTrail (trim s) := noTrail_trimEnd _

theorem trim_eq_self {s : List Char} (h1 : noLead s) (h2 : noTrail s) :
    trim s = s := by
  rw [trim, show trimStart s = s from trimStart_eq_of_noLead h1,
    trimEnd_eq_of_noTrail h2]

theorem trim_trim (s : List Char) : trim (trim s) = trim s :=
  trim_eq_self (noLead_trim s) (noTrail_trim s)

theorem noTrail_append_right {x y : List Char} (h : noTrail (x ++ y)) :
    noTrail y := by
  intro c hc
  apply h c
  cases y with
  | nil => simp at hc
  | cons b t =>
    rw [List.getLast?_append_of_ne_nil]
    · exact hc
    · simp

theorem dropWhile_isSuffix {p : Char → Bool} (s : List Char) :
    ∃ x, x ++ s.dropWhile p = s :=
  ⟨s.takeWhile p, by rw [List.takeWhile_append_dropWhile]⟩

theorem noTrail_dropWhile {p : Char → Bool} {s : List Char} (h : noTrail s) :
    noTrail (s.dropWhile p) := by
  obtain ⟨x, hx⟩ := dropWhile_isSuffix (p := p) s
  rw [← hx] at h
  exact noTrail_append_right h

theorem byteSplitAt_eq_append {n : Nat} {s a b : List Char}
    (h : byteSplitAt n s = some (a, b)) : s = a ++ b := by
  induction s generalizing n a b with
  | nil =>
    cases n with
    | zero => simp [byteSplitAt] at h; simp [h.1, h.2]
    | succ m => simp [byteSplitAt] at h
  | cons c t ih =>
    cases n with
    | zero => simp [byteSplitAt] at h; simp [h.1, h.2]
    | succ m =>
      simp only [byteSplitAt] at h
      split at h
      · cases hrec : byteSplitAt (m + 1 - utf8CharLen c) t with
        | none => rw [hrec] at h; simp at h
        | some ab =>
          obtain ⟨a', b'⟩ := ab
          rw [hrec] at h
          simp at h
          rw [← h.1, ← h.2, ih hrec]
          rfl
      · simp at h

theorem strip_cases {al d out : List Char} (h : strip_alias_pfx al d = some out) :
    out = [] ∨ out = trim d ∨
      ∃ pre suf, trim d = pre ++ suf ∧
        out = trimStart (suf.dropWhile isSepChar) := by
  simp only [strip_alias_pfx] at h
  split at h
  · simp at h
    exact Or.inl h
  · split at h
    · split at h
      · simp at h
      · rename_i pre suf heq
        split at h
        · simp at h
          exact Or.inr (Or.inr ⟨pre, suf, byteSplitAt_eq_append heq, h.symm⟩)
        · simp at h
          exact Or.inr (Or.inl h.symm)
    · simp at h
      exact Or.inr (Or.inl h.symm)

theorem noLead_nil : noLead [] := by intro c hc; simp at hc

theorem noTrail_nil : noTrail [] := by intro c hc; simp at hc

theorem strip_wf {al d out : List Char} (h : strip_alias_pfx al d = some out) :
    noLead out ∧ noTrail out := by
  rcases strip_cases h with h1 | h1 | ⟨pre, suf, hps, h1⟩
  · rw [h1]; exact ⟨noLead_nil, noTrail_nil⟩
  · rw [h1]; exact ⟨noLead_trim d, noTrail_trim d⟩
  · rw [h1]
    refine ⟨noLead_trimStart _, ?_⟩
    have hsuf : noTrail suf := noTrail_append_right (hps ▸ noTrail_trim d)
    exact noTrail_dropWhile (noTrail_dropWhile hsuf)

theorem strip_trim_neutral {al d out : List Char}
    (h : strip_alias_pfx al d = some out) : trim out = out :=
  trim_eq_self (strip_wf h).1 (strip_wf h).2

theorem lineCandidate_trim_neutral {l : Option (List Char)} {c : List Char}
    (h : lineCandidate l = some c) : trim c = c := by
  cases l with
  | none => simp [lineCandidate] at h
  | some line =>
    simp only [lineCandidate] at h
    split at h
    · simp at h
    · split at h
      · simp at h
      · split at h
        · simp at h
        · simp at h
          rw [← h]
          exact trim_trim _

/-! ## SRes plumbing -/

theorem SRes.bind_ok {α β : Type} {x : SRes α} {f : α → SRes β} {b : β}
    (h : SRes.bind x f = .ok b) : ∃ a, x = .ok a ∧ f a = .ok b := by
  cases x with
  | crash => simp [SRes.bind] at h
  | err => simp [SRes.bind] at h
  | ok a => exact ⟨a, rfl, h⟩

theorem SRes.bind_err {α β : Type} {x : SRes α} {f : α → SRes β}
    (h : SRes.bind x f = .err) : x = .err ∨ ∃ a, x = .ok a ∧ f a = .err := by
  cases x with
  | crash => simp [SRes.bind] at h
  | err => exact Or.inl rfl
  | ok a => exact Or.inr ⟨a, rfl, h⟩

/-! ## first_comment_line: the loop is the first candidate of the budgeted
prefix -/

theorem fclLoop_eq_findSome (lines : List (Option (List Char))) (n : Nat) :
    fclLoop lines n = (lines.take n).findSome? lineCandidate := by
  induction lines generalizing n with
  | nil => cases n <;> simp [fclLoop]
  | cons l t ih =>
    cases n with
    | zero => simp [fclLoop]
    | succ m =>
      rw [List.take_succ_cons, List.findSome?_cons]
      simp only [fclLoop]
      cases lineCandidate l with
      | none => simpa using ih m
      | some c => simp

theorem fclLoop_none_of_no_candidate {lines : List (Option (List Char))}
    {n : Nat} (h : ∀ l ∈ lines.take n, lineCandidate l = none) :
    fclLoop lines n = none := by
  rw [fclLoop_eq_findSome]
  exact List.findSome?_eq_none_iff.mpr h

theorem fclLoop_trim_neutral {lines : List (Option (List Char))} {n : Nat}
    {c : List Char} (h : fclLoop lines n = some c) : trim c = c := by
  induction lines generalizing n with
  | nil => cases n <;> simp [fclLoop] at h
  | cons l t ih =>
    cases n with
    | zero => simp [fclLoop] at h
    | succ m =>
      simp only [fclLoop] at h
      cases hl : lineCandidate l with
      | none => rw [hl] at h; exact ih h
      | some c0 =>
        rw [hl] at h
        simp at h
        rw [← h]
        exact lineCandidate_trim_neutral hl

theorem first_comment_trim_neutral {fs : FS} {p : List Char} {n : Nat}
    {c : List Char} (h : first_comment_line fs p n = some c) : trim c = c := by
  unfold first_comment_line at h
  cases ho : fs.openRead p with
  | none => rw [ho] at h; simp at h
  | some lines => rw [ho] at h; exact fclLoop_trim_neutral h

theorem first_comment_none_of_open_none {fs : FS} {p : List Char} {n : Nat}
    (h : fs.openRead p = none) : first_comment_line fs p n = none := by
  unfold first_comment_line
  rw [h]

/-! ## Per-entry properties of the scan -/

/-- The two per-entry facts the scan guarantees: the stored description is
trim-neutral, and a file that could not be opened stores no description. -/
def entryProp (fs : FS) (e : ConfigEntry) : Prop :=
  descWf e.description ∧ (fs.openRead e.path = none → e.description = none)

theorem entry_ok_prop {fs : FS} {p : List Char} {cat : Category}
    {e : ConfigEntry} (h : entry_for_path fs p cat = .ok e) : entryProp fs e := by
  cases cat <;>
  · simp only [entry_for_path] at h
    split at h
    · rename_i hcand
      simp at h
      constructor
      · exact Or.inl (by rw [← h])
      · intro _; rw [← h]
    · rename_i d hcand
      split at h
      · simp at h
      · rename_i s hs
        simp at h
        constructor
        · exact Or.inr ⟨s, by rw [← h], strip_trim_neutral hs⟩
        · intro hopen
          exfalso
          rw [← h] at hopen
          rw [first_comment_none_of_open_none hopen] at hcand
          exact Option.noConfusion hcand

theorem dirEntry_prop (fs : FS) (dir n : List Char) (cat : Category) :
    entryProp fs (dirEntry fs dir n cat) := by
  unfold dirEntry entryProp
  constructor
  · cases hc : first_comment_line fs (joinP dir n) 10 with
    | none => exact Or.inl (by simp [hc])
    | some c =>
      exact Or.inr ⟨c, by simp [hc], first_comment_trim_neutral hc⟩
  · intro hopen
    simp [first_comment_none_of_open_none hopen]

/-! ## Per-branch lemmas -/

theorem entry_ne_err (fs : FS) (p : List Char) (cat : Category) :
    entry_for_path fs p cat ≠ .err := by
  cases cat <;>
  · simp only [entry_for_path]
    split
    · simp
    · split <;> simp

theorem hyprBranch_ne_err (fs : FS) (root : List Char) :
    hyprBranch fs root ≠ .err := by
  simp only [hyprBranch]
  split
  · intro h
    rcases SRes.bind_err h with h1 | ⟨a, _, h1⟩
    · exact entry_ne_err _ _ _ h1
    · exact SRes.noConfusion h1
  · simp

theorem utilsLoop_ne_err (fs : FS) (root : List Char) (names : List (List Char)) :
    utilsLoop fs root names ≠ .err := by
  induction names with
  | nil => simp [utilsLoop]
  | cons n t ih =>
    simp only [utilsLoop]
    split
    · intro h
      rcases SRes.bind_err h with h1 | ⟨a, _, h1⟩
      · exact entry_ne_err _ _ _ h1
      · rcases SRes.bind_err h1 with h2 | ⟨b, _, h2⟩
        · exact ih h2
        · exact SRes.noConfusion h2
    · exact ih

theorem utilsBranch_ne_err (fs : FS) (root : List Char) :
    utilsBranch fs root ≠ .err := utilsLoop_ne_err fs root utilNames

theorem confdLoop_ne_err (fs : FS) (dir : List Char) (names : List (List Char)) :
    confdLoop fs dir names ≠ .err := by
  induction names with
  | nil => simp [confdLoop]
  | cons n t ih =>
    simp only [confdLoop]
    split
    · intro h
      rcases SRes.bind_err h with h1 | ⟨a, _, h1⟩
      · exact entry_ne_err _ _ _ h1
      · rcases SRes.bind_err h1 with h2 | ⟨b, _, h2⟩
        · exact ih h2
        · exact SRes.noConfusion h2
    · exact ih

theorem confdBranch_err_iff (fs : FS) (root : List Char) :
    confdBranch fs root = .err ↔
      (fs.isDir (joinP root (str "conf.d")) = true ∧
        fs.readDir (joinP root (str "conf.d")) = none) := by
  simp only [confdBranch]
  split
  · rename_i hdir
    cases hrd : fs.readDir (joinP root (str "conf.d")) with
    | none => simp [hdir, hrd]
    | some names => simp [hdir, hrd, confdLoop_ne_err fs _ names]
  · rename_i hdir
    simp at hdir
    simp [hdir]

theorem themesBranch_err_iff (fs : FS) (root : List Char) :
    themesBranch fs root = .err ↔
      (fs.isDir (joinP root (str "themes")) = true ∧
        fs.readDir (joinP root (str "themes")) = none) := by
  simp only [themesBranch]
  split
  · rename_i hdir
    cases hrd : fs.readDir (joinP root (str "themes")) with
    | none => simp [hdir, hrd]
    | some names => simp [hdir, hrd]
  · rename_i hdir
    simp at hdir
    simp [hdir]

theorem pluginsBranch_err_iff (fs : FS) (root : List Char) :
    pluginsBranch fs root = .err ↔
      (fs.isDir (joinP root (str "plugins")) = true ∧
        fs.readDir (joinP root (str "plugins")) = none) := by
  simp only [pluginsBranch]
  split
  · rename_i hdir
    cases hrd : fs.readDir (joinP root (str "plugins")) with
    | none => simp [hdir, hrd]
    | some names => simp [hdir, hrd]
  · rename_i hdir
    simp at hdir
    simp [hdir]

theorem scriptsLoop_err_iff (fs : FS) (dir : List Char)
    (names : List (List Char)) :
    scriptsLoop fs dir names = .err ↔
      ∃ n ∈ names, fs.isFile (joinP dir n) = true ∧
        fs.metaExec (joinP dir n) = none := by
  induction names with
  | nil => simp [scriptsLoop]
  | cons n t ih =>
    simp only [scriptsLoop]
    split
    · rename_i hfile
      cases hm : fs.metaExec (joinP dir n) with
      | none => simp [hfile, hm]
      | some isExec =>
        cases isExec with
        | true =>
          dsimp only
          rw [if_pos rfl]
          constructor
          · intro h
            rcases SRes.bind_err h with h1 | ⟨a, _, h1⟩
            · rcases ih.mp h1 with ⟨m, hmem, hc⟩
              exact ⟨m, List.mem_cons_of_mem _ hmem, hc⟩
            · exact SRes.noConfusion h1
          · intro ⟨m, hmem, hc⟩
            rcases List.mem_cons.mp hmem with rfl | hmem2
            · rw [hm] at hc
              exact Option.noConfusion hc.2
            · have herr := ih.mpr ⟨m, hmem2, hc⟩
              rw [herr]
              rfl
        | false =>
          dsimp only
          rw [if_neg Bool.false_ne_true]
          rw [ih]
          constructor
          · intro ⟨m, hmem, hc⟩
            exact ⟨m, List.mem_cons_of_mem _ hmem, hc⟩
          · intro ⟨m, hmem, hc⟩
            rcases List.mem_cons.mp hmem with rfl | hmem2
            · rw [hm] at hc
              exact Option.noConfusion hc.2
            · exact ⟨m, hmem2, hc⟩
    · rename_i hfile
      simp at hfile
      rw [ih]
      constructor
      · intro ⟨m, hmem, hc⟩
        exact ⟨m, List.mem_cons_of_mem _ hmem, hc⟩
      · intro ⟨m, hmem, hc⟩
        rcases List.mem_cons.mp hmem with rfl | hmem
        · rw [hfile] at hc
          exact Bool.noConfusion hc.1
        · exact ⟨m, hmem, hc⟩

theorem scriptsBranch_err_iff (fs : FS) (root : List Char) :
    scriptsBranch fs root = .err ↔
      (fs.isDir (joinP root (str "scripts")) = true ∧
        (fs.readDir (joinP root (str "scripts")) = none ∨
          ∃ names, fs.readDir (joinP root (str "scripts")) = some names ∧
            ∃ n ∈ names, fs.isFile (joinP (joinP root (str "scripts")) n) = true ∧
              fs.metaExec (joinP (joinP root (str "scripts")) n) = none)) := by
  simp only [scriptsBranch]
  split
  · rename_i hdir
    cases hrd : fs.readDir (joinP root (str "scripts")) with
    | none => simp [hdir, hrd]
    | some names =>
      rw [scriptsLoop_err_iff]
      simp [hdir, hrd]
  · rename_i hdir
    simp at hdir
    simp [hdir]

/-! ## Branch membership properties -/

theorem hyprBranch_prop {fs : FS} {root : List Char} {l : List ConfigEntry}
    (h : hyprBranch fs root = .ok l) : ∀ e ∈ l, entryProp fs e := by
  simp only [hyprBranch] at h
  split at h
  · rcases SRes.bind_ok h with ⟨a, ha, hb⟩
    simp at hb
    intro e he
    rw [← hb] at he
    simp at he
    rw [he]
    exact entry_ok_prop ha
  · simp at h
    intro e he
    rw [h] at he
    simp at he

theorem utilsLoop_prop {fs : FS} {root : List Char} {names : List (List Char)}
    {l : List ConfigEntry} (h : utilsLoop fs root names = .ok l) :
    ∀ e ∈ l, entryProp fs e := by
  induction names generalizing l with
  | nil =>
    simp [utilsLoop] at h
    intro e he
    rw [h] at he
    simp at he
  | cons n t ih =>
    simp only [utilsLoop] at h
    split at h
    · rcases SRes.bind_ok h with ⟨a, ha, hb⟩
      rcases SRes.bind_ok hb with ⟨l2, hl2, hcons⟩
      simp at hcons
      intro e he
      rw [← hcons] at he
      rcases List.mem_cons.mp he with rfl | he2
      · exact entry_ok_prop ha
      · exact ih hl2 e he2
    · exact ih h

theorem confdLoop_prop {fs : FS} {dir : List Char} {names : List (List Char)}
    {l : List ConfigEntry} (h : confdLoop fs dir names = .ok l) :
    ∀ e ∈ l, entryProp fs e := by
  induction names generalizing l with
  | nil =>
    simp [confdLoop] at h
    intro e he
    rw [h] at he
    simp at he
  | cons n t ih =>
    simp only [confdLoop] at h
    split at h
    · rcases SRes.bind_ok h with ⟨a, ha, hb⟩
      rcases SRes.bind_ok hb with ⟨l2, hl2, hcons⟩
      simp at hcons
      intro e he
      rw [← hcons] at he
      rcases List.mem_cons.mp he with rfl | he2
      · exact entry_ok_prop ha
      · exact ih hl2 e he2
    · exact ih h

theorem pureDirLoop_prop (fs : FS) (dir : List Char) (cat : Category)
    (names : List (List Char)) :
    ∀ e ∈ pureDirLoop fs dir cat names, entryProp fs e := by
  induction names with
  | nil => simp [pureDirLoop]
  | cons n t ih =>
    simp only [pureDirLoop]
    split
    · intro e he
      rcases List.mem_cons.mp he with rfl | he2
      · exact dirEntry_prop fs dir n cat
      · exact ih e he2
    · exact ih

theorem themesBranch_prop {fs : FS} {root : List Char} {l : List ConfigEntry}
    (h : themesBranch fs root = .ok l) : ∀ e ∈ l, entryProp fs e := by
  simp only [themesBranch] at h
  split at h
  · split at h
    · exact absurd h (by simp)
    · simp at h
      rw [← h]
      exact pureDirLoop_prop fs _ _ _
  · simp at h
    intro e he
    rw [h] at he
    simp at he

theorem pluginsBranch_prop {fs : FS} {root : List Char} {l : List ConfigEntry}
    (h : pluginsBranch fs root = .ok l) : ∀ e ∈ l, entryProp fs e := by
  simp only [pluginsBranch] at h
  split at h
  · split at h
    · exact absurd h (by simp)
    · simp at h
      rw [← h]
      exact pureDirLoop_prop fs _ _ _
  · simp at h
    intro e he
    rw [h] at he
    simp at he

theorem scriptsLoop_prop {fs : FS} {dir : List Char} {names : List (List Char)}
    {l : List ConfigEntry} (h : scriptsLoop fs dir names = .ok l) :
    ∀ e ∈ l, entryProp fs e := by
  induction names generalizing l with
  | nil =>
    simp [scriptsLoop] at h
    intro e he
    rw [h] at he
    simp at he
  | cons n t ih =>
    simp only [scriptsLoop] at h
    split at h
    · split at h
      · exact absurd h (by simp)
      · split at h
        · rcases SRes.bind_ok h with ⟨l2, hl2, hcons⟩
          simp at hcons
          intro e he
          rw [← hcons] at he
          rcases List.mem_cons.mp he with rfl | he2
          · exact dirEntry_prop fs dir n .scripts
          · exact ih hl2 e he2
        · exact ih h
    · exact ih h

theorem scriptsBranch_prop {fs : FS} {root : List Char} {l : List ConfigEntry}
    (h : scriptsBranch fs root = .ok l) : ∀ e ∈ l, entryProp fs e := by
  simp only [scriptsBranch] at h
  split at h
  · split at h
    · exact absurd h (by simp)
    · exact scriptsLoop_prop h
  · simp at h
    intro e he
    rw [h] at he
    simp at he

theorem confdBranch_prop {fs : FS} {root : List Char} {l : List ConfigEntry}
    (h : confdBranch fs root = .ok l) : ∀ e ∈ l, entryProp fs e := by
  simp only [confdBranch] at h
  split at h
  · split at h
    · exact absurd h (by simp)
    · exact confdLoop_prop h
  · simp at h
    intro e he
    rw [h] at he
    simp at he

theorem scanRaw_mem {fs : FS} {root : List Char} {l : List ConfigEntry}
    (h : scanRaw fs root = .ok l) : ∀ e ∈ l, entryProp fs e := by
  simp only [scanRaw] at h
  rcases SRes.bind_ok h with ⟨l1, h1, h⟩
  rcases SRes.bind_ok h with ⟨l2, h2, h⟩
  rcases SRes.bind_ok h with ⟨l3, h3, h⟩
  rcases SRes.bind_ok h with ⟨l4, h4, h⟩
  rcases SRes.bind_ok h with ⟨l5, h5, h⟩
  rcases SRes.bind_ok h with ⟨l6, h6, h⟩
  simp at h
  intro e he
  rw [← h] at he
  simp only [List.append_assoc, List.mem_append] at he
  rcases he with he | he | he | he | he | he
  · exact hyprBranch_prop h1 e he
  · exact utilsLoop_prop h2 e he
  · exact confdBranch_prop h3 e he
  · exact themesBranch_prop h4 e he
  · exact pluginsBranch_prop h5 e he
  · exact scriptsBranch_prop h6 e he

/-! ## Enumeration failures -/

/-- An existing well-known directory failed to enumerate. -/
def dirFail (fs : FS) (d : List Char) : Prop :=
  fs.isDir d = true ∧ fs.readDir d = none

/-- The scan's hard-failure conditions: a failed enumeration of an existing
`conf.d`, `themes`, `plugins` or `scripts` directory, or a failed
`std::fs::metadata` on a regular file inside `scripts`.  Only the
`isDir`/`readDir`/`isFile`/`metaExec` oracles appear: file contents never
do. -/
def enumFail (fs : FS) (root : List Char) : Prop :=
  dirFail fs (joinP root (str "conf.d")) ∨
  dirFail fs (joinP root (str "themes")) ∨
  dirFail fs (joinP root (str "plugins")) ∨
  (fs.isDir (joinP root (str "scripts")) = true ∧
    (fs.readDir (joinP root (str "scripts")) = none ∨
      ∃ names, fs.readDir (joinP root (str "scripts")) = some names ∧
        ∃ n ∈ names, fs.isFile (joinP (joinP root (str "scripts")) n) = true ∧
          fs.metaExec (joinP (joinP root (str "scripts")) n) = none))

theorem scanRaw_err_enumFail {fs : FS} {root : List Char}
    (h : scanRaw fs root = .err) : enumFail fs root := by
  simp only [scanRaw] at h
  rcases SRes.bind_err h with h1 | ⟨l1, h1, h⟩
  · exact absurd h1 (hyprBranch_ne_err fs root)
  rcases SRes.bind_err h with h2 | ⟨l2, h2, h⟩
  · exact absurd h2 (utilsBranch_ne_err fs root)
  rcases SRes.bind_err h with h3 | ⟨l3, h3, h⟩
  · exact Or.inl ((confdBranch_err_iff fs root).mp h3)
  rcases SRes.bind_err h with h4 | ⟨l4, h4, h⟩
  · exact Or.inr (Or.inl ((themesBranch_err_iff fs root).mp h4))
  rcases SRes.bind_err h with h5 | ⟨l5, h5, h⟩
  · exact Or.inr (Or.inr (Or.inl ((pluginsBranch_err_iff fs root).mp h5)))
  rcases SRes.bind_err h with h6 | ⟨l6, h6, h⟩
  · exact Or.inr (Or.inr (Or.inr ((scriptsBranch_err_iff fs root).mp h6)))
  · exact SRes.noConfusion h

theorem enumFail_scanRaw_err {fs : FS} {root : List Char}
    (he : enumFail fs root) (hnc : scanRaw fs root ≠ .crash) :
    scanRaw fs root = .err := by
  cases h1 : hyprBranch fs root with
  | err => exact absurd h1 (hyprBranch_ne_err fs root)
  | crash => exact absurd (by simp only [scanRaw]; rw [h1]; rfl) hnc
  | ok l1 =>
  cases h2 : utilsBranch fs root with
  | err => exact absurd h2 (utilsBranch_ne_err fs root)
  | crash => exact absurd (by simp only [scanRaw]; rw [h1, h2]; rfl) hnc
  | ok l2 =>
  cases h3 : confdBranch fs root with
  | err => simp only [scanRaw]; rw [h1, h2, h3]; rfl
  | crash => exact absurd (by simp only [scanRaw]; rw [h1, h2, h3]; rfl) hnc
  | ok l3 =>
  cases h4 : themesBranch fs root with
  | err => simp only [scanRaw]; rw [h1, h2, h3, h4]; rfl
  | crash => exact absurd (by simp only [scanRaw]; rw [h1, h2, h3, h4]; rfl) hnc
  | ok l4 =>
  cases h5 : pluginsBranch fs root with
  | err => simp only [scanRaw]; rw [h1, h2, h3, h4, h5]; rfl
  | crash =>
    exact absurd (by simp only [scanRaw]; rw [h1, h2, h3, h4, h5]; rfl) hnc
  | ok l5 =>
  cases h6 : scriptsBranch fs root with
  | err => simp only [scanRaw]; rw [h1, h2, h3, h4, h5, h6]; rfl
  | crash =>
    exact absurd (by simp only [scanRaw]; rw [h1, h2, h3, h4, h5, h6]; rfl) hnc
  | ok l6 =>
  exfalso
  rcases he with hf | hf | hf | hf
  · have := (confdBranch_err_iff fs root).mpr hf
    rw [h3] at this
    exact SRes.noConfusion this
  · have := (themesBranch_err_iff fs root).mpr hf
    rw [h4] at this
    exact SRes.noConfusion this
  · have := (pluginsBranch_err_iff fs root).mpr hf
    rw [h5] at this
    exact SRes.noConfusion this
  · have := (scriptsBranch_err_iff fs root).mpr hf
    rw [h6] at this
    exact SRes.noConfusion this

theorem scan_err_iff_raw (fs : FS) (root : List Char) :
    scan_configs fs root = .err ↔ scanRaw fs root = .err := by
  simp only [scan_configs]
  cases h : scanRaw fs root <;> simp [SRes.bind]

theorem scan_crash_iff_raw (fs : FS) (root : List Char) :
    scan_configs fs root = .crash ↔ scanRaw fs root = .crash := by
  simp only [scan_configs]
  cases h : scanRaw fs root <;> simp [SRes.bind]

theorem scan_ok_elim {fs : FS} {root : List Char} {entries : List ConfigEntry}
    (h : scan_configs fs root = .ok entries) :
    ∃ raw, scanRaw fs root = .ok raw ∧ entries = sortLe entryLeB raw := by
  simp only [scan_configs] at h
  rcases SRes.bind_ok h with ⟨raw, hr, hs⟩
  simp at hs
  exact ⟨raw, hr, hs.symm⟩

/-! ## Absent locations are skipped silently -/

theorem hyprBranch_absent {fs : FS} {root : List Char}
    (h : fs.ex (joinP root (str "hyprland.conf")) = false) :
    hyprBranch fs root = .ok [] := by
  simp [hyprBranch, h]

theorem utilsLoop_absent {fs : FS} {root : List Char}
    {names : List (List Char)} (h : ∀ n ∈ names, fs.ex (joinP root n) = false) :
    utilsLoop fs root names = .ok [] := by
  induction names with
  | nil => rfl
  | cons n t ih =>
    have hn := h n (List.mem_cons_self n t)
    simp only [utilsLoop, hn]
    exact ih fun m hm => h m (List.mem_cons_of_mem _ hm)

theorem utilsBranch_absent {fs : FS} {root : List Char}
    (h : ∀ n ∈ utilNames, fs.ex (joinP root n) = false) :
    utilsBranch fs root = .ok [] := utilsLoop_absent h

theorem confdBranch_absent {fs : FS} {root : List Char}
    (h : fs.isDir (joinP root (str "conf.d")) = false) :
    confdBranch fs root = .ok [] := by
  simp [confdBranch, h]

theorem themesBranch_absent {fs : FS} {root : List Char}
    (h : fs.isDir (joinP root (str "themes")) = false) :
    themesBranch fs root = .ok [] := by
  simp [themesBranch, h]

theorem pluginsBranch_absent {fs : FS} {root : List Char}
    (h : fs.isDir (joinP root (str "plugins")) = false) :
    pluginsBranch fs root = .ok [] := by
  simp [pluginsBranch, h]

theorem scriptsBranch_absent {fs : FS} {root : List Char}
    (h : fs.isDir (joinP root (str "scripts")) = false) :
    scriptsBranch fs root = .ok [] := by
  simp [scriptsBranch, h]

/-! ## Stable insertion sort: permutation, sortedness, stability -/

theorem insertLe_perm {α : Type} (r : α → α → Bool) (a : α) (l : List α) :
    (insertLe r a l).Perm (a :: l) := by
  induction l with
  | nil => simp [insertLe]
  | cons b t ih =>
    simp only [insertLe]
    split
    · exact List.Perm.refl _
    · exact (ih.cons b).trans (List.Perm.swap a b t)

theorem sortLe_perm {α : Type} (r : α → α → Bool) (l : List α) :
    (sortLe r l).Perm l := by
  induction l with
  | nil => exact List.Perm.refl _
  | cons a t ih =>
    exact (insertLe_perm r a (sortLe r t)).trans (ih.cons a)

theorem insertLe_pairwise {α : Type} {r : α → α → Bool}
    (htot : ∀ x y, r x y = true ∨ r y x = true)
    (htr : ∀ x y z, r x y = true → r y z = true → r x z = true)
    (a : α) {l : List α} (h : l.Pairwise (fun x y => r x y = true)) :
    (insertLe r a l).Pairwise (fun x y => r x y = true) := by
  induction l with
  | nil => simp [insertLe]
  | cons b t ih =>
    simp only [insertLe]
    split
    · rename_i hab
      rcases List.pairwise_cons.mp h with ⟨hb, ht⟩
      refine List.Pairwise.cons ?_ h
      intro y hy
      rcases List.mem_cons.mp hy with rfl | hy2
      · exact hab
      · exact htr a b y hab (hb y hy2)
    · rename_i hab
      have hba : r b a = true := (htot a b).resolve_left (by simpa using hab)
      rcases List.pairwise_cons.mp h with ⟨hb, ht⟩
      refine List.Pairwise.cons ?_ (ih ht)
      intro y hy
      have hmem : y = a ∨ y ∈ t := by
        have := (insertLe_perm r a t).mem_iff.mp hy
        simpa using this
      rcases hmem with rfl | hy2
      · exact hba
      · exact hb y hy2

theorem sortLe_pairwise {α : Type} {r : α → α → Bool}
    (htot : ∀ x y, r x y = true ∨ r y x = true)
    (htr : ∀ x y z, r x y = true → r y z = true → r x z = true)
    (l : List α) : (sortLe r l).Pairwise (fun x y => r x y = true) := by
  induction l with
  | nil => simp [sortLe]
  | cons a t ih => exact insertLe_pairwise htot htr a ih

theorem filter_insertLe_pos {α : Type} {r : α → α → Bool} {p : α → Bool}
    {a : α} (hpa : p a = true)
    (hskip : ∀ b, r a b = false → p b = false) (l : List α) :
    (insertLe r a l).filter p = a :: l.filter p := by
  induction l with
  | nil => simp [insertLe, hpa]
  | cons b t ih =>
    simp only [insertLe]
    split
    · simp [List.filter_cons, hpa]
    · rename_i hab
      have hpb : p b = false := hskip b (by simpa using hab)
      simp [List.filter_cons, hpb, ih]

theorem filter_insertLe_neg {α : Type} {r : α → α → Bool} {p : α → Bool}
    {a : α} (hpa : p a = false) (l : List α) :
    (insertLe r a l).filter p = l.filter p := by
  induction l with
  | nil => simp [insertLe, hpa]
  | cons b t ih =>
    simp only [insertLe]
    split
    · simp [List.filter_cons, hpa]
    · simp [List.filter_cons, ih]

theorem filter_sortLe {α : Type} {r : α → α → Bool} {p : α → Bool}
    (hk : ∀ a b, p a = true → r a b = false → p b = false) (l : List α) :
    (sortLe r l).filter p = l.filter p := by
  induction l with
  | nil => rfl
  | cons a t ih =>
    simp only [sortLe]
    by_cases hpa : p a = true
    · rw [filter_insertLe_pos hpa (fun b hb => hk a b hpa hb), ih]
      simp [List.filter_cons, hpa]
    · have hpa' : p a = false := by simpa using hpa
      rw [filter_insertLe_neg hpa', ih]
      simp [List.filter_cons, hpa']

/-! ## The entry order is total, transitive and reflexive on equal keys -/

theorem listLeB_cons_iff (a b : Char) (s t : List Char) :
    listLeB (a :: s) (b :: t) = true ↔
      (a.toNat < b.toNat ∨ (a.toNat = b.toNat ∧ listLeB s t = true)) := by
  simp only [listLeB]
  by_cases h1 : a.toNat < b.toNat
  · simp [h1]
  · by_cases h2 : b.toNat < a.toNat
    · rw [if_neg h1, if_pos h2]
      constructor
      · intro hh
        exact Bool.noConfusion hh
      · rintro (hh | ⟨hh, _⟩) <;> omega
    · have heq : a.toNat = b.toNat := by omega
      rw [if_neg h1, if_neg h2]
      simp [heq]

theorem listLeB_refl (s : List Char) : listLeB s s = true := by
  induction s with
  | nil => rfl
  | cons a t ih => rw [listLeB_cons_iff]; exact Or.inr ⟨rfl, ih⟩

theorem listLeB_total : ∀ s t : List Char,
    listLeB s t = true ∨ listLeB t s = true := by
  intro s
  induction s with
  | nil => intro t; exact Or.inl rfl
  | cons a s ih =>
    intro t
    cases t with
    | nil => exact Or.inr rfl
    | cons b t2 =>
      rcases Nat.lt_trichotomy a.toNat b.toNat with h | h | h
      · exact Or.inl ((listLeB_cons_iff _ _ _ _).mpr (Or.inl h))
      · rcases ih t2 with h2 | h2
        · exact Or.inl ((listLeB_cons_iff _ _ _ _).mpr (Or.inr ⟨h, h2⟩))
        · exact Or.inr ((listLeB_cons_iff _ _ _ _).mpr (Or.inr ⟨h.symm, h2⟩))
      · exact Or.inr ((listLeB_cons_iff _ _ _ _).mpr (Or.inl h))

theorem listLeB_trans : ∀ s t u : List Char,
    listLeB s t = true → listLeB t u = true → listLeB s u = true := by
  intro s
  induction s with
  | nil => intros; rfl
  | cons a s ih =>
    intro t u h1 h2
    cases t with
    | nil => simp [listLeB] at h1
    | cons b t2 =>
      cases u with
      | nil => simp [listLeB] at h2
      | cons c u2 =>
        rw [listLeB_cons_iff] at h1 h2 ⊢
        rcases h1 with h1 | ⟨h1, h1r⟩
        · rcases h2 with h2 | ⟨h2, _⟩
          · exact Or.inl (by omega)
          · exact Or.inl (by omega)
        · rcases h2 with h2 | ⟨h2, h2r⟩
          · exact Or.inl (by omega)
          · exact Or.inr ⟨by omega, ih t2 u2 h1r h2r⟩

theorem keyLeB_iff (a b : Nat × List Char) :
    keyLeB a b = true ↔ (a.1 < b.1 ∨ (a.1 = b.1 ∧ listLeB a.2 b.2 = true)) := by
  simp only [keyLeB]
  by_cases h1 : a.1 < b.1
  · simp [h1]
  · by_cases h2 : b.1 < a.1
    · rw [if_neg h1, if_pos h2]
      constructor
      · intro hh
        exact Bool.noConfusion hh
      · rintro (hh | ⟨hh, _⟩) <;> omega
    · have heq : a.1 = b.1 := by omega
      rw [if_neg h1, if_neg h2]
      simp [heq]

theorem keyLeB_refl (k : Nat × List Char) : keyLeB k k = true :=
  (keyLeB_iff k k).mpr (Or.inr ⟨rfl, listLeB_refl k.2⟩)

theorem entryLeB_total : ∀ x y : ConfigEntry,
    entryLeB x y = true ∨ entryLeB y x = true := by
  intro x y
  unfold entryLeB
  rcases Nat.lt_trichotomy x.sort_key.1 y.sort_key.1 with h | h | h
  · exact Or.inl ((keyLeB_iff _ _).mpr (Or.inl h))
  · rcases listLeB_total x.sort_key.2 y.sort_key.2 with h2 | h2
    · exact Or.inl ((keyLeB_iff _ _).mpr (Or.inr ⟨h, h2⟩))
    · exact Or.inr ((keyLeB_iff _ _).mpr (Or.inr ⟨h.symm, h2⟩))
  · exact Or.inr ((keyLeB_iff _ _).mpr (Or.inl h))

theorem entryLeB_trans : ∀ x y z : ConfigEntry,
    entryLeB x y = true → entryLeB y z = true → entryLeB x z = true := by
  intro x y z h1 h2
  unfold entryLeB at h1 h2 ⊢
  rw [keyLeB_iff] at h1 h2 ⊢
  rcases h1 with h1 | ⟨h1, h1r⟩
  · rcases h2 with h2 | ⟨h2, _⟩
    · exact Or.inl (by omega)
    · exact Or.inl (by omega)
  · rcases h2 with h2 | ⟨h2, h2r⟩
    · exact Or.inl (by omega)
    · exact Or.inr ⟨by omega, listLeB_trans _ _ _ h1r h2r⟩

theorem entryLeB_refl_keys {a b : ConfigEntry} (h : a.sort_key = b.sort_key) :
    entryLeB a b = true := by
  unfold entryLeB
  rw [h]
  exact keyLeB_refl _

theorem entry_skip_keys {a b : ConfigEntry} {k : Nat × List Char}
    (hpa : decide (a.sort_key = k) = true) (hab : entryLeB a b = false) :
    decide (b.sort_key = k) = false := by
  simp only [decide_eq_true_eq] at hpa
  by_contra hcon
  simp only [Bool.not_eq_false, decide_eq_true_eq] at hcon
  have : entryLeB a b = true := entryLeB_refl_keys (by rw [hpa, hcon])
  rw [hab] at this
  exact Bool.noConfusion this

/-! ## Every scanned entry satisfies the per-entry properties -/

theorem scan_entry_prop {fs : FS} {root : List Char}
    {entries : List ConfigEntry} (h : scan_configs fs root = .ok entries) :
    ∀ e ∈ entries, entryProp fs e := by
  rcases scan_ok_elim h with ⟨raw, hraw, hsort⟩
  intro e he
  apply scanRaw_mem hraw
  rw [hsort] at he
  exact (sortLe_perm entryLeB raw).mem_iff.mp he

/-! ## Slicing the rendered line -/

theorem slice_of_parts (P B S : List Char) {i j : Nat}
    (hi : i = P.length) (hj : j = P.length + B.length) :
    sliceChars (P ++ (B ++ S)) (i, j) = B := by
  subst hi
  subst hj
  simp only [sliceChars]
  rw [List.drop_left, Nat.add_sub_cancel_left, List.take_left]

theorem trim_nil_eq : trim ([] : List Char) = [] := rfl

theorem sepGlyph_length : sepGlyph.length = 5 := rfl

theorem str_sp_pipe_split : str " | " = str " " ++ str "| " := rfl

theorem sepGlyph_ne_nil : sepGlyph ≠ [] := by decide

theorem build_shape_empty (e : ConfigEntry) (h : e.description.getD [] = []) :
    build_colored_line e true =
      (str "[" ++ (e.category.label ++ (str "] " ++ (e.«alias» ++
         (str " " ++ (trailText e))))),
       [(catAttr, 1, 1 + e.category.label.length),
        (aliasAttr, 1 + e.category.label.length + 2,
          1 + e.category.label.length + 2 + e.«alias».length),
        (fileAttr, 1 + e.category.label.length + 2 + e.«alias».length + 1,
          1 + e.category.label.length + 2 + e.«alias».length + 1 +
            (trailText e).length)]) := by
  simp [build_colored_line, h, trim_nil_eq, trailText, str_sp_pipe_split,
    List.append_assoc]
  refine ⟨?_, ?_, ?_⟩ <;>
    simp [show (str "[").length = 1 from rfl, show (str "] ").length = 2 from rfl,
      show (str " ").length = 1 from rfl]

theorem build_shape_desc (e : ConfigEntry) (d : List Char)
    (hd : e.description = some d) (htrim : trim d = d) (hne : d ≠ []) :
    build_colored_line e true =
      (str "[" ++ (e.category.label ++ (str "] " ++ (e.«alias» ++
         (sepGlyph ++ (d ++ (str " " ++ (trailText e))))))),
       [(catAttr, 1, 1 + e.category.label.length),
        (aliasAttr, 1 + e.category.label.length + 2,
          1 + e.category.label.length + 2 + e.«alias».length),
        (descAttr, 1 + e.category.label.length + 2 + e.«alias».length + 5,
          1 + e.category.label.length + 2 + e.«alias».length + 5 + d.length),
        (fileAttr, 1 + e.category.label.length + 2 + e.«alias».length + 5 +
            d.length + 1,
          1 + e.category.label.length + 2 + e.«alias».length + 5 + d.length + 1 +
            (trailText e).length)]) := by
  simp [build_colored_line, hd, htrim, hne, trailText, str_sp_pipe_split,
    List.append_assoc, sepGlyph_ne_nil, sepGlyph_length,
    show (str "[").length = 1 from rfl, show (str "] ").length = 2 from rfl,
    show (str " ").length = 1 from rfl]

theorem len_lbrack : (str "[").length = 1 := rfl

theorem len_rbrack : (str "] ").length = 2 := rfl

theorem len_space : (str " ").length = 1 := rfl

theorem trailText_length (e : ConfigEntry) :
    (trailText e).length = 2 + e.file_name.length + 2 + e.path.length + 1 := by
  simp [trailText, List.length_append,
    show (str "| ").length = 2 from rfl, show (str " (").length = 2 from rfl,
    show (str ")").length = 1 from rfl]
  omega

/-- C1: with segment coloring enabled, slicing the display string's characters
by the annotated half-open character ranges, in order, yields exactly the
category label, the alias, the description (when a nonempty one is present),
and the trailing `"| <file> (<path>)"` span; the ranges are ordered,
non-overlapping, and lie within the display string, whose indices count
characters (never bytes), so no boundary can split a multi-byte glyph.
The hypothesis restricts to description fields the scanner can actually
produce (`scan_entry_prop`): absent, or trim-neutral text. -/
theorem c1_render_roundtrip (e : ConfigEntry) (h : descWf e.description) :
    (build_colored_line e true).2.map
        (fun f => sliceChars (build_colored_line e true).1 f.2) = segTexts e ∧
      chainB 0 (build_colored_line e true).1.length
        (build_colored_line e true).2 = true := by
  have hcase : e.description.getD [] = [] ∨
      ∃ d, e.description = some d ∧ trim d = d ∧ d ≠ [] := by
    rcases h with hnone | ⟨d, hd, htrim⟩
    · exact Or.inl (by rw [hnone]; rfl)
    · by_cases hne : d = []
      · exact Or.inl (by rw [hd, hne]; rfl)
      · exact Or.inr ⟨d, hd, htrim, hne⟩
  rcases hcase with hE | ⟨d, hd, htrim, hne⟩
  · rw [build_shape_empty e hE]
    have h1 : sliceChars
        (str "[" ++ (e.category.label ++ (str "] " ++ (e.«alias» ++
          (str " " ++ (trailText e))))))
        (1, 1 + e.category.label.length) = e.category.label :=
      slice_of_parts _ _ _ rfl rfl
    have h2 : sliceChars
        (str "[" ++ (e.category.label ++ (str "] " ++ (e.«alias» ++
          (str " " ++ (trailText e))))))
        (1 + e.category.label.length + 2,
         1 + e.category.label.length + 2 + e.«alias».length) = e.«alias» := by
      rw [show str "[" ++ (e.category.label ++ (str "] " ++ (e.«alias» ++
          (str " " ++ (trailText e))))) =
          (str "[" ++ e.category.label ++ str "] ") ++ (e.«alias» ++
            (str " " ++ (trailText e))) from by simp [List.append_assoc]]
      exact slice_of_parts _ _ _ (by simp [List.length_append, len_lbrack, len_rbrack, len_space] <;> omega) (by simp [List.length_append, len_lbrack, len_rbrack, len_space] <;> omega)
    have h3 : sliceChars
        (str "[" ++ (e.category.label ++ (str "] " ++ (e.«alias» ++
          (str " " ++ (trailText e))))))
        (1 + e.category.label.length + 2 + e.«alias».length + 1,
         1 + e.category.label.length + 2 + e.«alias».length + 1 +
           (trailText e).length) = trailText e := by
      rw [show str "[" ++ (e.category.label ++ (str "] " ++ (e.«alias» ++
          (str " " ++ (trailText e))))) =
          (str "[" ++ e.category.label ++ str "] " ++ e.«alias» ++ str " ") ++
            (trailText e ++ []) from by simp [List.append_assoc]]
      exact slice_of_parts _ _ _ (by simp [List.length_append, len_lbrack, len_rbrack, len_space] <;> omega) (by simp [List.length_append, len_lbrack, len_rbrack, len_space] <;> omega)
    constructor
    · have hsegs : segTexts e = [e.category.label, e.«alias», trailText e] := by
        rcases h with hnone | ⟨d, hd, htrim⟩
        · simp [segTexts, hnone]
        · rw [hd] at hE
          simp at hE
          simp [segTexts, hd, hE]
      rw [hsegs]
      simp only [List.map_cons, List.map_nil]
      rw [h1, h2, h3]
    · simp only [chainB, Bool.and_eq_true, decide_eq_true_eq]
      simp [List.length_append, trailText_length, len_lbrack, len_rbrack,
        len_space]
      omega
  · rw [build_shape_desc e d hd htrim hne]
    have h1 : sliceChars
        (str "[" ++ (e.category.label ++ (str "] " ++ (e.«alias» ++
          (sepGlyph ++ (d ++ (str " " ++ (trailText e))))))))
        (1, 1 + e.category.label.length) = e.category.label :=
      slice_of_parts _ _ _ rfl rfl
    have h2 : sliceChars
        (str "[" ++ (e.category.label ++ (str "] " ++ (e.«alias» ++
          (sepGlyph ++ (d ++ (str " " ++ (trailText e))))))))
        (1 + e.category.label.length + 2,
         1 + e.category.label.length + 2 + e.«alias».length) = e.«alias» := by
      rw [show str "[" ++ (e.category.label ++ (str "] " ++ (e.«alias» ++
          (sepGlyph ++ (d ++ (str " " ++ (trailText e))))))) =
          (str "[" ++ e.category.label ++ str "] ") ++ (e.«alias» ++
            (sepGlyph ++ (d ++ (str " " ++ (trailText e))))) from by
          simp [List.append_assoc]]
      exact slice_of_parts _ _ _ (by simp [List.length_append, len_lbrack, len_rbrack, len_space] <;> omega) (by simp [List.length_append, len_lbrack, len_rbrack, len_space] <;> omega)
    have h3 : sliceChars
        (str "[" ++ (e.category.label ++ (str "] " ++ (e.«alias» ++
          (sepGlyph ++ (d ++ (str " " ++ (trailText e))))))))
        (1 + e.category.label.length + 2 + e.«alias».length + 5,
         1 + e.category.label.length + 2 + e.«alias».length + 5 + d.length) = d := by
      rw [show str "[" ++ (e.category.label ++ (str "] " ++ (e.«alias» ++
          (sepGlyph ++ (d ++ (str " " ++ (trailText e))))))) =
          (str "[" ++ e.category.label ++ str "] " ++ e.«alias» ++ sepGlyph) ++
            (d ++ (str " " ++ (trailText e))) from by simp [List.append_assoc]]
      exact slice_of_parts _ _ _
        (by simp [List.length_append, sepGlyph_length, len_lbrack, len_rbrack,
          len_space] <;> omega)
        (by simp [List.length_append, sepGlyph_length, len_lbrack, len_rbrack,
          len_space] <;> omega)
    have h4 : sliceChars
        (str "[" ++ (e.category.label ++ (str "] " ++ (e.«alias» ++
          (sepGlyph ++ (d ++ (str " " ++ (trailText e))))))))
        (1 + e.category.label.length + 2 + e.«alias».length + 5 + d.length + 1,
         1 + e.category.label.length + 2 + e.«alias».length + 5 + d.length + 1 +
           (trailText e).length) = trailText e := by
      rw [show str "[" ++ (e.category.label ++ (str "] " ++ (e.«alias» ++
          (sepGlyph ++ (d ++ (str " " ++ (trailText e))))))) =
          (str "[" ++ e.category.label ++ str "] " ++ e.«alias» ++ sepGlyph ++
            d ++ str " ") ++ (trailText e ++ []) from by
          simp [List.append_assoc]]
      exact slice_of_parts _ _ _
        (by simp [List.length_append, sepGlyph_length, len_lbrack, len_rbrack,
          len_space] <;> omega)
        (by simp [List.length_append, sepGlyph_length, len_lbrack, len_rbrack,
          len_space] <;> omega)
    constructor
    · have hsegs : segTexts e = [e.category.label, e.«alias», d, trailText e] := by
        simp [segTexts, hd, hne]
      rw [hsegs]
      simp only [List.map_cons, List.map_nil]
      rw [h1, h2, h3, h4]
    · simp only [chainB, Bool.and_eq_true, decide_eq_true_eq]
      simp [List.length_append, trailText_length, sepGlyph_length, len_lbrack,
        len_rbrack, len_space]
      omega

theorem build_false_snd (e : ConfigEntry) :
    (build_colored_line e false).2 = [] := rfl

theorem build_false_fst (e : ConfigEntry) :
    (build_colored_line e false).1 = (build_colored_line e true).1 := rfl

/-- C2 (amended): with segment coloring enabled the renderer produces exactly
four annotated ranges — category label, alias, description, trailing span, in
that left-to-right attribute order — when the entry carries a nonempty
description, and exactly three (no description range) when it does not; with
coloring disabled it returns the same plain display string with zero
annotated ranges. -/
theorem c2_range_count (e : ConfigEntry) (h : descWf e.description) :
    ((build_colored_line e true).2.map Prod.fst =
        [catAttr, aliasAttr] ++
          (if e.description.getD [] = [] then [] else [descAttr]) ++
          [fileAttr]) ∧
      ((build_colored_line e true).2.length =
        if e.description.getD [] = [] then 3 else 4) ∧
      (build_colored_line e false).2 = [] ∧
      (build_colored_line e false).1 = (build_colored_line e true).1 := by
  refine ⟨?_, ?_, build_false_snd e, build_false_fst e⟩ <;>
  · have hcase : e.description.getD [] = [] ∨
        ∃ d, e.description = some d ∧ trim d = d ∧ d ≠ [] := by
      rcases h with hnone | ⟨d, hd, htrim⟩
      · exact Or.inl (by rw [hnone]; rfl)
      · by_cases hne : d = []
        · exact Or.inl (by rw [hd, hne]; rfl)
        · exact Or.inr ⟨d, hd, htrim, hne⟩
    rcases hcase with hE | ⟨d, hd, htrim, hne⟩
    · rw [build_shape_empty e hE]
      simp [hE]
    · rw [build_shape_desc e d hd htrim hne]
      have : e.description.getD [] = d := by rw [hd]; rfl
      simp [this, hne]

/-- C2, the claim as frozen, is false: an entry with no description yields
three annotated ranges, not four. -/
theorem c2_counterexample :
    (build_colored_line
        ⟨str "/r/hyprland.conf", str "hyprland.conf", str "hyprland",
         none, .hyprland⟩ true).2.length ≠ 4 := by decide

/-- Witness entry: the `conf.d` binds fragment. -/
def wEntry : ConfigEntry :=
  ⟨str "/r/conf.d/70-binds.conf", str "70-binds.conf", str "binds",
   some (str "keybindings for Hyprland"), .confd⟩

/-- Witness entry with no description. -/
def wEntryNoDesc : ConfigEntry :=
  ⟨str "/r/themes/ocean.conf", str "ocean.conf", str "ocean", none, .themes⟩

theorem c1_render_roundtrip_witness :
    (build_colored_line wEntry true).2.map
        (fun f => sliceChars (build_colored_line wEntry true).1 f.2) =
        segTexts wEntry ∧
      chainB 0 (build_colored_line wEntry true).1.length
        (build_colored_line wEntry true).2 = true :=
  c1_render_roundtrip wEntry
    (Or.inr ⟨str "keybindings for Hyprland", rfl, by decide⟩)

theorem c2_range_count_witness :
    ((build_colored_line wEntryNoDesc true).2.map Prod.fst =
        [catAttr, aliasAttr] ++
          (if wEntryNoDesc.description.getD [] = [] then [] else [descAttr]) ++
          [fileAttr]) ∧
      ((build_colored_line wEntryNoDesc true).2.length =
        if wEntryNoDesc.description.getD [] = [] then 3 else 4) ∧
      (build_colored_line wEntryNoDesc false).2 = [] ∧
      (build_colored_line wEntryNoDesc false).1 =
        (build_colored_line wEntryNoDesc true).1 :=
  c2_range_count wEntryNoDesc (Or.inl rfl)

/-! ## splitOnce lemmas and claim C3 -/

theorem splitOnce_not_mem {c : Char} {s : List Char} (h : c ∉ s) :
    splitOnce c s = none := by
  induction s with
  | nil => rfl
  | cons a t ih =>
    simp only [List.mem_cons, not_or] at h
    have hne : ¬a = c := fun hac => h.1 hac.symm
    simp only [splitOnce, if_neg hne, ih h.2]

theorem splitOnce_append {c : Char} {pre post : List Char} (h : c ∉ pre) :
    splitOnce c (pre ++ c :: post) = some (pre, post) := by
  induction pre with
  | nil => simp [splitOnce]
  | cons a t ih =>
    simp only [List.mem_cons, not_or] at h
    have hne : ¬a = c := fun hac => h.1 hac.symm
    simp only [List.cons_append, splitOnce, if_neg hne, List.append_eq, ih h.2]

/-- C3, the claim as frozen, is false: the code splits at the first `'-'`
whether or not the prefix is numeric.  Stem `"foo-bar"` has no
`number + separator` prefix, so the claimed rule leaves it unchanged, but the
code yields `"bar"`. -/
theorem c3_counterexample :
    alias_from_conf_d (str "foo-bar") = str "bar" ∧
      alias_from_conf_d_claimed (str "foo-bar") = str "foo-bar" ∧
      str "bar" ≠ str "foo-bar" := by decide

/-- C3 (amended): the drop-in alias strips everything up to and including the
FIRST `'-'` of the stem whenever the stem contains one — numeric prefix or
not — and leaves the stem unmodified otherwise; the claim's examples
`"70-binds" → "binds"`, `"00-env" → "env"`, `"standalone" → "standalone"`
all hold. -/
theorem c3_alias_rule :
    (∀ pre post : List Char, '-' ∉ pre →
        alias_from_conf_d (pre ++ '-' :: post) = post) ∧
      (∀ stem : List Char, '-' ∉ stem → alias_from_conf_d stem = stem) ∧
      alias_from_conf_d (str "70-binds") = str "binds" ∧
      alias_from_conf_d (str "00-env") = str "env" ∧
      alias_from_conf_d (str "standalone") = str "standalone" := by
  refine ⟨?_, ?_, by decide, by decide, by decide⟩
  · intro pre post h
    simp [alias_from_conf_d, splitOnce_append h]
  · intro stem h
    simp [alias_from_conf_d, splitOnce_not_mem h]

theorem c3_alias_rule_witness :
    alias_from_conf_d (str "70" ++ '-' :: str "binds") = str "binds" ∧
      alias_from_conf_d (str "standalone") = str "standalone" :=
  ⟨c3_alias_rule.1 (str "70") (str "binds") (by decide),
   c3_alias_rule.2.1 (str "standalone") (by decide)⟩

/-! ## Claim C4: the themes/plugins/scripts passes never strip the alias
prefix -/

/-- C4 fails on the code: `scan_configs` builds theme (and plugin/script)
entries inline, bypassing `entry_for_path`, so their descriptions are stored
without alias-prefix deduplication.  For `themes/ocean.conf` with first
comment `"# Ocean - blue theme"`, the candidate begins case-insensitively
with the alias `"ocean"`, yet the stored description keeps the prefix; the
second conjunct shows what `strip_alias_prefix` itself would have stored. -/
theorem c4_theme_desc_not_stripped :
    scan_configs fsTheme (str "r") =
        .ok [⟨str "r/themes/ocean.conf", str "ocean.conf", str "ocean",
              some (str "Ocean - blue theme"), .themes⟩] ∧
      strip_alias_pfx (str "ocean") (str "Ocean - blue theme") =
        some (str "blue theme") := by decide

/-! ## Claim C10: strip_alias_prefix panics on a non-boundary byte slice -/

/-- A root whose `conf.d/a.conf` starts with the comment `# é`: the alias is
`"a"` (1 byte) and the trimmed candidate is `"é"` (one 2-byte character), so
`s[..alias.len()]` slices inside the glyph. -/
def fsPanic : FS :=
  ⟨fun _ => false,
   fun p => p = str "r/conf.d",
   fun _ => false,
   fun p => if p = str "r/conf.d" then some [str "a.conf"] else none,
   fun _ => none,
   fun p => if p = str "r/conf.d/a.conf"
            then some [some (str "# é")] else none⟩

/-- C10 fails on the code: `strip_alias_prefix("a", "é")` evaluates
`s[..1]` on `"é"`, whose only character occupies bytes 0..2, so byte index 1
is not a character boundary and Rust panics (modelled by `none` /
`SRes.crash`).  The whole scan aborts on such a file, as the last conjunct
shows. -/
theorem c10_strip_panics :
    strip_alias_pfx (str "a") (str "é") = none ∧
      utf8Len (str "a") = 1 ∧ utf8Len (str "é") = 2 ∧
      scan_configs fsPanic (str "r") = .crash := by decide

/-! ## Claim C5: total order and stable sort -/

/-- C5: on a successful scan the emitted sequence is the stable sort of the
discovery-order sequence by `sort_key` — category rank ascending, then the
lower-cased per-category secondary string — so the output is totally ordered
by that key (`Pairwise`), is a permutation of the discovered entries, and
entries with equal keys keep their scan order (the filter at any fixed key
is unchanged). -/
theorem c5_sorted_stable (fs : FS) (root : List Char)
    (raw : List ConfigEntry) (h : scanRaw fs root = .ok raw) :
    scan_configs fs root = .ok (sortLe entryLeB raw) ∧
      (sortLe entryLeB raw).Pairwise (fun x y => entryLeB x y = true) ∧
      (sortLe entryLeB raw).Perm raw ∧
      ∀ k, (sortLe entryLeB raw).filter (fun e => decide (e.sort_key = k)) =
        raw.filter (fun e => decide (e.sort_key = k)) := by
  refine ⟨?_, sortLe_pairwise entryLeB_total entryLeB_trans raw,
    sortLe_perm _ _, ?_⟩
  · simp [scan_configs, h, SRes.bind]
  · intro k
    exact filter_sortLe (fun a b hpa hab => entry_skip_keys hpa hab) raw

/-- Two themes discovered in anti-alphabetical order, to exercise the sort. -/
def fsSort : FS :=
  ⟨fun _ => false,
   fun p => p = str "r/themes",
   fun _ => false,
   fun p => if p = str "r/themes"
            then some [str "zeta.conf", str "alpha.conf"] else none,
   fun _ => none,
   fun _ => none⟩

def rawSort : List ConfigEntry :=
  [⟨str "r/themes/zeta.conf", str "zeta.conf", str "zeta", none, .themes⟩,
   ⟨str "r/themes/alpha.conf", str "alpha.conf", str "alpha", none, .themes⟩]

theorem c5_sorted_stable_witness :
    scan_configs fsSort (str "r") = .ok (sortLe entryLeB rawSort) ∧
      (sortLe entryLeB rawSort).Pairwise (fun x y => entryLeB x y = true) ∧
      (sortLe entryLeB rawSort).Perm rawSort ∧
      ∀ k, (sortLe entryLeB rawSort).filter
          (fun e => decide (e.sort_key = k)) =
        rawSort.filter (fun e => decide (e.sort_key = k)) :=
  c5_sorted_stable fsSort (str "r") rawSort (by decide)

/-! ## Claim C6: bounded description budgets -/

/-- The filesystem truncated to the first `n` lines of every file. -/
def truncFS (fs : FS) (n : Nat) : FS :=
  { fs with openRead := fun q => (fs.openRead q).map (fun ls => ls.take n) }

theorem first_comment_trunc (fs : FS) (p : List Char) (n : Nat) :
    first_comment_line (truncFS fs n) p n = first_comment_line fs p n := by
  unfold first_comment_line truncFS
  cases ho : fs.openRead p with
  | none => simp [ho]
  | some lines =>
    dsimp only
    rw [ho]
    show fclLoop (lines.take n) n = fclLoop lines n
    rw [fclLoop_eq_findSome, fclLoop_eq_findSome, List.take_take, Nat.min_self]

/-- C6: description extraction is budgeted.  The loop equals the first
candidate of the first `max_lines` lines; if no candidate occurs within the
budget the result is `none` even when a later line qualifies; and
`entry_for_path` is unchanged when every file is truncated to its category's
budget — 20 lines for Utility, 10 for every other category. -/
theorem c6_desc_budget :
    (∀ (lines : List (Option (List Char))) (max_lines : Nat),
        fclLoop lines max_lines =
          (lines.take max_lines).findSome? lineCandidate) ∧
      (∀ (lines : List (Option (List Char))) (max_lines : Nat),
        (∀ l ∈ lines.take max_lines, lineCandidate l = none) →
          fclLoop lines max_lines = none) ∧
      (∀ (fs : FS) (p : List Char) (cat : Category),
        entry_for_path fs p cat =
          entry_for_path (truncFS fs (if cat = Category.utility then 20 else 10))
            p cat) := by
  refine ⟨fclLoop_eq_findSome, fun _ _ => fclLoop_none_of_no_candidate, ?_⟩
  intro fs p cat
  cases cat <;> simp [entry_for_path, first_comment_trunc]

theorem c6_desc_budget_witness :
    fclLoop [some (str "x"), some (str "# hi")] 1 = none :=
  c6_desc_budget.2.1 [some (str "x"), some (str "# hi")] 1 (by decide)

/-! ## Claims C7 and C8: error handling of the scan -/

theorem scanRaw_ok_not_enumFail {fs : FS} {root : List Char}
    {raw : List ConfigEntry} (h : scanRaw fs root = .ok raw) :
    ¬enumFail fs root := by
  intro he
  simp only [scanRaw] at h
  rcases SRes.bind_ok h with ⟨l1, h1, h⟩
  rcases SRes.bind_ok h with ⟨l2, h2, h⟩
  rcases SRes.bind_ok h with ⟨l3, h3, h⟩
  rcases SRes.bind_ok h with ⟨l4, h4, h⟩
  rcases SRes.bind_ok h with ⟨l5, h5, h⟩
  rcases SRes.bind_ok h with ⟨l6, h6, h⟩
  rcases he with hf | hf | hf | hf
  · have := (confdBranch_err_iff fs root).mpr hf
    rw [h3] at this
    exact SRes.noConfusion this
  · have := (themesBranch_err_iff fs root).mpr hf
    rw [h4] at this
    exact SRes.noConfusion this
  · have := (pluginsBranch_err_iff fs root).mpr hf
    rw [h5] at this
    exact SRes.noConfusion this
  · have := (scriptsBranch_err_iff fs root).mpr hf
    rw [h6] at this
    exact SRes.noConfusion this

/-- C7: on a successful scan, every discovered file whose content could not
be opened still has its entry in the output, with no description (first
conjunct, applied to the entry); and whatever the `openRead` oracle does —
every file unreadable included — the scan never returns an error because of
it (second conjunct). -/
theorem c7_unreadable_not_error (fs : FS) (root : List Char)
    (entries : List ConfigEntry) (h : scan_configs fs root = .ok entries) :
    (∀ e ∈ entries, fs.openRead e.path = none → e.description = none) ∧
      ∀ g, scan_configs { fs with openRead := g } root ≠ .err := by
  constructor
  · intro e he hop
    exact (scan_entry_prop h e he).2 hop
  · intro g hcontra
    have herr : scanRaw { fs with openRead := g } root = .err :=
      (scan_err_iff_raw _ _).mp hcontra
    have henum : enumFail { fs with openRead := g } root :=
      scanRaw_err_enumFail herr
    rcases scan_ok_elim h with ⟨raw, hraw, _⟩
    exact scanRaw_ok_not_enumFail hraw henum

def hyprEntryW : ConfigEntry :=
  ⟨str "r/hyprland.conf", str "hyprland.conf", str "hyprland", none,
   .hyprland⟩

theorem c7_unreadable_not_error_witness :
    (∀ e ∈ [hyprEntryW], fsUnreadable.openRead e.path = none →
        e.description = none) ∧
      ∀ g, scan_configs { fsUnreadable with openRead := g } (str "r") ≠
        .err :=
  c7_unreadable_not_error fsUnreadable (str "r") [hyprEntryW] (by decide)

/-- C8: each well-known location is checked independently — an absent
location contributes `.ok []` to the scan and the remaining passes proceed
(first six conjuncts) — while a failed enumeration of an existing well-known
directory (or a failed metadata read in `scripts`) is exactly what makes the
whole scan return an error (last two conjuncts; the converse direction holds
whenever no entry construction panics first). -/
theorem c8_absent_skipped_enum_fails (fs : FS) (root : List Char) :
    (fs.ex (joinP root (str "hyprland.conf")) = false →
        hyprBranch fs root = .ok []) ∧
      ((∀ n ∈ utilNames, fs.ex (joinP root n) = false) →
        utilsBranch fs root = .ok []) ∧
      (fs.isDir (joinP root (str "conf.d")) = false →
        confdBranch fs root = .ok []) ∧
      (fs.isDir (joinP root (str "themes")) = false →
        themesBranch fs root = .ok []) ∧
      (fs.isDir (joinP root (str "plugins")) = false →
        pluginsBranch fs root = .ok []) ∧
      (fs.isDir (joinP root (str "scripts")) = false →
        scriptsBranch fs root = .ok []) ∧
      (scan_configs fs root = .err → enumFail fs root) ∧
      (enumFail fs root → scan_configs fs root ≠ .crash →
        scan_configs fs root = .err) := by
  refine ⟨hyprBranch_absent, utilsBranch_absent, confdBranch_absent,
    themesBranch_absent, pluginsBranch_absent, scriptsBranch_absent, ?_, ?_⟩
  · intro h
    exact scanRaw_err_enumFail ((scan_err_iff_raw fs root).mp h)
  · intro he hnc
    refine (scan_err_iff_raw fs root).mpr (enumFail_scanRaw_err he ?_)
    intro hcrash
    exact hnc ((scan_crash_iff_raw fs root).mpr hcrash)

theorem c8_absent_skipped_enum_fails_witness :
    scan_configs fsBadDir (str "r") = .err ∧
      confdBranch fsEmpty (str "r") = .ok [] :=
  ⟨(c8_absent_skipped_enum_fails fsBadDir (str "r")).2.2.2.2.2.2.2
      (Or.inl ⟨by decide, by decide⟩) (by decide),
   (c8_absent_skipped_enum_fails fsEmpty (str "r")).2.2.1 (by decide)⟩

/-! ## Claim C9: abort yields no selection, not an error -/

/-- C9: when the interactive selector signals abort, `Picker::pick` returns
`Ok(None)` — an explicit "no selection", never an error. -/
theorem c9_abort_no_selection (entries : List ConfigEntry)
    (catF : Option Category) (o : SkimOut) (h : o.is_abort = true) :
    pickModel entries catF (some o) = .ok none := by
  simp [pickModel, h]

theorem c9_abort_no_selection_witness :
    pickModel [wEntry] (some Category.confd) (some ⟨true, []⟩) = .ok none :=
  c9_abort_no_selection [wEntry] (some Category.confd) ⟨true, []⟩ rfl
